import Mathlib

/-!
Verification development for the LPA (label propagation) community-detection
program: a shallow embedding of its core functions (`statistics`, the per-vertex
update rule of `lpa`, and the round/best-tracker loop of `lpa`), together with
theorems settling the specification's claims against that embedding.
-/

namespace LPA

/-- Dense integer vertex handle (`type VertexId = usize` in the source). -/
abbrev VertexId := Nat

/-- Exact model of the `f64` values arising in the program: finite values are kept
as exact rationals (rounding is abstracted away), plus the two infinities and NaN,
with IEEE rules for the special values. -/
inductive FP where
  | fin : ℚ → FP
  | pinf : FP
  | ninf : FP
  | nan : FP
deriving DecidableEq

/-- IEEE addition on the exact float model. -/
def fpAdd : FP → FP → FP
  | .fin a, .fin b => .fin (a + b)
  | .fin _, .pinf => .pinf
  | .fin _, .ninf => .ninf
  | .pinf, .fin _ => .pinf
  | .ninf, .fin _ => .ninf
  | .pinf, .pinf => .pinf
  | .ninf, .ninf => .ninf
  | _, _ => .nan

/-- IEEE subtraction on the exact float model. -/
def fpSub : FP → FP → FP
  | .fin a, .fin b => .fin (a - b)
  | .fin _, .pinf => .ninf
  | .fin _, .ninf => .pinf
  | .pinf, .fin _ => .pinf
  | .ninf, .fin _ => .ninf
  | .pinf, .ninf => .pinf
  | .ninf, .pinf => .ninf
  | _, _ => .nan

/-- IEEE multiplication on the exact float model. -/
def fpMul : FP → FP → FP
  | .fin a, .fin b => .fin (a * b)
  | .fin a, .pinf => if a = 0 then .nan else if 0 < a then .pinf else .ninf
  | .fin a, .ninf => if a = 0 then .nan else if 0 < a then .ninf else .pinf
  | .pinf, .fin b => if b = 0 then .nan else if 0 < b then .pinf else .ninf
  | .ninf, .fin b => if b = 0 then .nan else if 0 < b then .ninf else .pinf
  | .pinf, .pinf => .pinf
  | .ninf, .ninf => .pinf
  | .pinf, .ninf => .ninf
  | .ninf, .pinf => .ninf
  | _, _ => .nan

/-- IEEE division on the exact float model (the zero denominator is the `+0.0`
produced by `(nedges * 2) as f64` when `nedges == 0`). -/
def fpDiv : FP → FP → FP
  | .fin a, .fin b =>
      if b = 0 then (if a = 0 then .nan else if 0 < a then .pinf else .ninf)
      else .fin (a / b)
  | .fin _, .pinf => .fin 0
  | .fin _, .ninf => .fin 0
  | .pinf, .fin b => if 0 ≤ b then .pinf else .ninf
  | .ninf, .fin b => if 0 ≤ b then .ninf else .pinf
  | _, _ => .nan

/-- IEEE strict greater-than (`>` on `f64` in Rust): any comparison with NaN is
false. -/
def fpGt : FP → FP → Bool
  | .fin a, .fin b => decide (b < a)
  | .fin _, .ninf => true
  | .pinf, .fin _ => true
  | .pinf, .ninf => true
  | _, _ => false

/-- Reflexive order generated by `fpGt`: used to state monotonicity of the best
tracker. -/
def FPle (x y : FP) : Prop := x = y ∨ fpGt y x = true

instance : Add FP := ⟨fpAdd⟩

instance : Zero FP := ⟨FP.fin 0⟩

instance : AddCommMonoid FP where
  add_assoc := by
    intro a b c
    show fpAdd (fpAdd a b) c = fpAdd a (fpAdd b c)
    cases a <;> cases b <;> cases c <;> simp [fpAdd, add_assoc]
  zero_add := by
    intro a
    show fpAdd (FP.fin 0) a = a
    cases a <;> simp [fpAdd]
  add_zero := by
    intro a
    show fpAdd a (FP.fin 0) = a
    cases a <;> simp [fpAdd]
  add_comm := by
    intro a b
    show fpAdd a b = fpAdd b a
    cases a <;> cases b <;> simp [fpAdd, add_comm]
  nsmul := nsmulRec

/-- The streaming most-frequent-label loop body of `lpa` (the `for &nbr in
edges[id].iter()` loop): walks the observed neighbor labels carrying the running
count table, current best label, best count, the tie counter feeding
`gen_ratio(1, counter + 1)`, and the index of the next random draw.  `coin k` is
the outcome of the k-th `gen_ratio` call of this vertex's task. -/
def chooseGo (coin : Nat → Bool) :
    List Nat → (Nat → Nat) → Nat → Nat → Nat → Nat → Nat
  | [], _, newLabel, _, _, _ => newLabel
  | nbrLabel :: rest, counts, newLabel, maxCount, counter, ci =>
    let cnt := counts nbrLabel + 1
    let counts' := fun l => if l = nbrLabel then cnt else counts l
    if maxCount < cnt then
      chooseGo coin rest counts' nbrLabel cnt 1 ci
    else if cnt = maxCount then
      (if coin ci then
        chooseGo coin rest counts' nbrLabel maxCount (counter + 1) (ci + 1)
      else
        chooseGo coin rest counts' newLabel maxCount (counter + 1) (ci + 1))
    else
      chooseGo coin rest counts' newLabel maxCount counter ci

/-- The label a vertex decides on, given the stream of neighbor labels it observed
and its current label (`new_label` is initialized to the vertex's own label and
`max_count` to 0, as in the source). -/
def chooseLabel (coin : Nat → Bool) (obs : List Nat) (cur : Nat) : Nat :=
  chooseGo coin obs (fun _ => 0) cur 0 0 0

/-- The i-th neighbor of vertex v in the adjacency structure. -/
def nbrAt (edges : List (List VertexId)) (v i : Nat) : Nat :=
  (edges.getD v []).getD i 0

/-- The stream of labels vertex v observes for its neighbors, given the
observation function of this round. -/
def obsStream (edges : List (List VertexId)) (obs : Nat → Nat → Nat) (v : Nat) :
    List Nat :=
  (List.range (edges.getD v []).length).map (obs v)

/-- One parallel update round of `lpa`, as a relation between the pre-round and
post-round label arrays.  `sched u` is the time of vertex u's atomic `swap`;
`obs v i` is the value vertex v's acquire `load` returns for its i-th neighbor:
either that neighbor's pre-round label, or its in-round updated label provided the
neighbor's swap happened before v's (chaotic relaxation, not lock-stepped).
`coin v` is the stream of tie-break draws of vertex v's task. -/
def RoundRel (edges : List (List VertexId)) (old new : List VertexId) : Prop :=
  new.length = old.length ∧
  ∃ (sched : Nat → Nat) (obs : Nat → Nat → Nat) (coin : Nat → Nat → Bool),
    (∀ v, v < old.length → ∀ i, i < (edges.getD v []).length →
      obs v i = old.getD (nbrAt edges v i) 0 ∨
      (obs v i = new.getD (nbrAt edges v i) 0 ∧
        sched (nbrAt edges v i) < sched v)) ∧
    (∀ v, v < old.length →
      new.getD v 0 = chooseLabel (coin v) (obsStream edges obs v) (old.getD v 0))

/-- Number of vertices whose `swap` returned a value different from the new label,
i.e. the value `active` holds at the end of a round. -/
def activeOf (old new : List VertexId) : Nat :=
  ((List.range old.length).filter
    (fun v => decide (¬ new.getD v 0 = old.getD v 0))).length

/-- Community of label l: the set of vertex ids currently labelled l (the
contents of `communities[l]` in `statistics`). -/
def comm (vertices : List VertexId) (l : Nat) : Finset Nat :=
  (Finset.range vertices.length).filter (fun id => vertices.getD id 0 = l)

/-- `lv` of the community of label l: the number of ordered (vertex, neighbor)
pairs with both endpoints in the community. -/
def lv (vertices : List VertexId) (edges : List (List VertexId)) (l : Nat) :
    Nat :=
  (comm vertices l).sum
    (fun id => (edges.getD id []).countP (fun nbr => decide (nbr ∈ comm vertices l)))

/-- `dv` of the community of label l: the sum of the degrees of its vertices. -/
def dv (vertices : List VertexId) (edges : List (List VertexId)) (l : Nat) :
    Nat :=
  (comm vertices l).sum (fun id => (edges.getD id []).length)

/-- Per-slot contribution of `statistics`: `0.0` for an empty slot, otherwise
`lv / (2m) - (dv / (2m)) * (dv / (2m))` with `m = nedges`, in `f64`. -/
def contrib (vertices : List VertexId) (edges : List (List VertexId))
    (nedges : Nat) (l : Nat) : FP :=
  if comm vertices l = ∅ then FP.fin 0
  else
    fpSub
      (fpDiv (FP.fin (lv vertices edges l)) (FP.fin ((nedges * 2 : Nat) : ℚ)))
      (fpMul
        (fpDiv (FP.fin (dv vertices edges l)) (FP.fin ((nedges * 2 : Nat) : ℚ)))
        (fpDiv (FP.fin (dv vertices edges l)) (FP.fin ((nedges * 2 : Nat) : ℚ))))

/-- The modularity evaluator `statistics`: returns the number of distinct labels
present and the sum over the `vertices.len()` community slots of their
contributions. -/
def statistics (vertices : List VertexId) (edges : List (List VertexId))
    (nedges : Nat) : Nat × FP :=
  (vertices.dedup.length,
   ((List.range vertices.length).map (contrib vertices edges nedges)).sum)

/-- Reference statistics, following the specification text: group vertex ids by
label; for each non-empty community (one per distinct label present) compute `lv`
and `dv` and the contribution `lv/(2m) - (dv/(2m))^2`; the modularity is the sum
over these communities, and the first component is the number of distinct labels
present. -/
def specStatistics (vertices : List VertexId) (edges : List (List VertexId))
    (nedges : Nat) : Nat × FP :=
  (vertices.dedup.length,
   (vertices.dedup.map (fun l =>
     fpSub
       (fpDiv (FP.fin (lv vertices edges l)) (FP.fin ((nedges * 2 : Nat) : ℚ)))
       (fpMul
         (fpDiv (FP.fin (dv vertices edges l)) (FP.fin ((nedges * 2 : Nat) : ℚ)))
         (fpDiv (FP.fin (dv vertices edges l)) (FP.fin ((nedges * 2 : Nat) : ℚ)))))).sum)

/-- State of the `lpa` loop: the iteration counter, the contents of the atomic
label cells, the caller's `vertices` vector (overwritten on improvement), the
tracked best community count and modularity, and the `active` counter as left by
the previous round (seeded with `vertices.len()`). -/
structure LpaState where
  iteration : Int
  labels : List VertexId
  callerVertices : List VertexId
  bestCommunity : Nat
  bestModularity : FP
  active : Nat
deriving DecidableEq

/-- The state of `lpa` on entry to the loop. -/
def initLpa (vertices : List VertexId) : LpaState :=
  ⟨0, vertices, vertices, 0, FP.fin (-1), vertices.length⟩

/-- One iteration of the `lpa` loop: the guard `iteration < limit && active > 0`
holds, a parallel round relates the old and new label arrays, the round is
evaluated, and the best snapshot (and the caller's vector) is overwritten exactly
when the round's modularity is strictly greater than the stored best. -/
def LpaStep (edges : List (List VertexId)) (nedges : Nat) (limit : Int)
    (s s' : LpaState) : Prop :=
  s.iteration < limit ∧ 0 < s.active ∧
  ∃ new, RoundRel edges s.labels new ∧
    s' = ⟨s.iteration + 1, new,
          if fpGt (statistics new edges nedges).2 s.bestModularity then new
          else s.callerVertices,
          if fpGt (statistics new edges nedges).2 s.bestModularity then
            (statistics new edges nedges).1
          else s.bestCommunity,
          if fpGt (statistics new edges nedges).2 s.bestModularity then
            (statistics new edges nedges).2
          else s.bestModularity,
          activeOf s.labels new⟩

/-- The out-of-bounds access `atomic_vertices[nbr]` a round performs when some
adjacency entry is not a valid index into the label array (the label array has
`vertices.len()` cells). -/
def roundIndexPanics (edges : List (List VertexId)) (labels : List VertexId) :
    Prop :=
  ∃ v, v < labels.length ∧ ∃ nbr ∈ edges.getD v [], labels.length ≤ nbr

theorem fp_add_def (x y : FP) : x + y = fpAdd x y := rfl

theorem fp_zero_def : (0 : FP) = FP.fin 0 := rfl

theorem sum_map_fin {α : Type} (g : α → ℚ) :
    ∀ L : List α, (L.map (fun x => FP.fin (g x))).sum = FP.fin ((L.map g).sum)
  | [] => rfl
  | a :: t => by
    simp only [List.map_cons, List.sum_cons, sum_map_fin g t, fp_add_def, fpAdd]

theorem chooseGo_mem (coin : Nat → Bool) :
    ∀ (l : List Nat) (counts : Nat → Nat) (nl mc ct ci : Nat),
      chooseGo coin l counts nl mc ct ci = nl ∨
        chooseGo coin l counts nl mc ct ci ∈ l := by
  intro l
  induction l with
  | nil => intro counts nl mc ct ci; left; rfl
  | cons a t ih =>
    intro counts nl mc ct ci
    simp only [chooseGo]
    split
    · rcases ih _ a _ 1 ci with h | h
      · right; rw [h]; exact List.mem_cons_self a t
      · right; exact List.mem_cons_of_mem a h
    · split
      · split
        · rcases ih _ a _ (ct + 1) (ci + 1) with h | h
          · right; rw [h]; exact List.mem_cons_self a t
          · right; exact List.mem_cons_of_mem a h
        · rcases ih _ nl _ (ct + 1) (ci + 1) with h | h
          · left; exact h
          · right; exact List.mem_cons_of_mem a h
      · rcases ih _ nl _ ct ci with h | h
        · left; exact h
        · right; exact List.mem_cons_of_mem a h

theorem chooseLabel_mem (coin : Nat → Bool) (obs : List Nat) (cur : Nat) :
    chooseLabel coin obs cur = cur ∨ chooseLabel coin obs cur ∈ obs :=
  chooseGo_mem coin obs (fun _ => 0) cur 0 0 0

theorem chooseLabel_nil (coin : Nat → Bool) (cur : Nat) :
    chooseLabel coin [] cur = cur := rfl

theorem fpGt_trans {a b c : FP} (h1 : fpGt b a = true) (h2 : fpGt c b = true) :
    fpGt c a = true := by
  cases a <;> cases b <;> cases c <;> simp_all [fpGt]
  exact lt_trans h1 h2

theorem FPle_refl (x : FP) : FPle x x := Or.inl rfl

theorem FPle_trans {x y z : FP} (h1 : FPle x y) (h2 : FPle y z) : FPle x z := by
  rcases h1 with rfl | h1
  · exact h2
  · rcases h2 with rfl | h2
    · exact Or.inr h1
    · exact Or.inr (fpGt_trans h1 h2)

theorem activeOf_zero_eq {old new : List VertexId}
    (hlen : new.length = old.length) (h : activeOf old new = 0) : new = old := by
  have hnil : ((List.range old.length).filter
      (fun v => decide (¬ new.getD v 0 = old.getD v 0))) = [] :=
    List.length_eq_zero.mp h
  have hall := List.filter_eq_nil_iff.mp hnil
  apply List.ext_getElem hlen
  intro i h1 h2
  have hi : i ∈ List.range old.length := List.mem_range.mpr h2
  have := hall i hi
  simp only [decide_not, Bool.not_eq_true', decide_eq_false_iff_not,
    Decidable.not_not] at this
  rwa [List.getD_eq_getElem new 0 h1, List.getD_eq_getElem old 0 h2] at this

theorem RoundRel.len {edges : List (List VertexId)} {old new : List VertexId}
    (h : RoundRel edges old new) : new.length = old.length := h.1

theorem round_isolated {edges : List (List VertexId)} {old new : List VertexId}
    (h : RoundRel edges old new) (v : Nat) (hv : v < old.length)
    (hiso : edges.getD v [] = []) : new.getD v 0 = old.getD v 0 := by
  obtain ⟨hlen, sched, obs, coin, hobs, hdec⟩ := h
  have hd := hdec v hv
  simp only [obsStream, hiso, List.length_nil, List.range_zero, List.map_nil,
    chooseLabel_nil] at hd
  exact hd

theorem round_valid {edges : List (List VertexId)} {old new : List VertexId}
    {n : Nat} (h : RoundRel edges old new) (hn : old.length = n)
    (hold : ∀ x ∈ old, x < n) (hadj : ∀ l ∈ edges, ∀ x ∈ l, x < n) :
    ∀ x ∈ new, x < n := by
  obtain ⟨hlen, sched, obs, coin, hobs, hdec⟩ := h
  have holdD : ∀ v, v < n → old.getD v 0 < n := by
    intro v hv
    rw [List.getD_eq_getElem old 0 (by omega)]
    exact hold _ (List.getElem_mem _)
  have hadjD : ∀ v i, i < (edges.getD v []).length → nbrAt edges v i < n := by
    intro v i hi
    by_cases hv : v < edges.length
    · have hmem : edges.getD v [] ∈ edges := by
        rw [List.getD_eq_getElem edges [] hv]
        exact List.getElem_mem _
      refine hadj _ hmem _ ?_
      rw [nbrAt, List.getD_eq_getElem _ 0 hi]
      exact List.getElem_mem _
    · exfalso
      rw [List.getD_eq_default edges [] (by omega)] at hi
      simp at hi
  have key : ∀ t v, sched v < t → v < n → new.getD v 0 < n := by
    intro t
    induction t with
    | zero => intro v hv; omega
    | succ t ih =>
      intro v hsv hv
      have hdv := hdec v (by omega)
      rcases chooseLabel_mem (coin v) (obsStream edges obs v) (old.getD v 0)
        with hm | hm
      · rw [hdv, hm]; exact holdD v hv
      · rw [hdv]
        obtain ⟨j, hj, hobsj⟩ := List.mem_map.mp hm
        have hjlt : j < (edges.getD v []).length := List.mem_range.mp hj
        rcases hobs v (by omega) j hjlt with hcase | ⟨hcase, hsched⟩
        · rw [← hobsj, hcase]; exact holdD _ (hadjD v j hjlt)
        · rw [← hobsj, hcase]
          exact ih (nbrAt edges v j) (by omega) (hadjD v j hjlt)
  intro x hx
  obtain ⟨i, hi, rfl⟩ := List.getElem_of_mem hx
  have hin : i < n := by omega
  have hk := key (sched i + 1) i (Nat.lt_succ_self _) hin
  rwa [List.getD_eq_getElem new 0 hi] at hk

theorem lpaStep_best_le {edges : List (List VertexId)} {nedges : Nat}
    {limit : Int} {s s' : LpaState} (h : LpaStep edges nedges limit s s') :
    FPle s.bestModularity s'.bestModularity := by
  obtain ⟨_, _, new, _, rfl⟩ := h
  by_cases hc : fpGt (statistics new edges nedges).2 s.bestModularity = true
  · simp only [hc, if_true]
    exact Or.inr hc
  · simp only [hc, if_false]
    exact FPle_refl _

theorem lpaRTG_best_mono {edges : List (List VertexId)} {nedges : Nat}
    {limit : Int} {s s' : LpaState}
    (h : Relation.ReflTransGen (LpaStep edges nedges limit) s s') :
    FPle s.bestModularity s'.bestModularity := by
  induction h with
  | refl => exact FPle_refl _
  | tail _ hstep ih => exact FPle_trans ih (lpaStep_best_le hstep)

theorem lpaRTG_stuck {edges : List (List VertexId)} {nedges : Nat}
    {limit : Int} {s0 s : LpaState}
    (h : Relation.ReflTransGen (LpaStep edges nedges limit) s0 s)
    (hstuck : ∀ s', ¬ LpaStep edges nedges limit s0 s') : s = s0 := by
  rcases Relation.ReflTransGen.cases_head h with rfl | ⟨c, hc, _⟩
  · rfl
  · exact absurd hc (hstuck c)

theorem comm_nonempty_iff (vertices : List VertexId) (l : Nat) :
    comm vertices l ≠ ∅ ↔ l ∈ vertices := by
  constructor
  · intro h
    obtain ⟨id, hid⟩ := Finset.nonempty_iff_ne_empty.mpr h
    rw [comm, Finset.mem_filter, Finset.mem_range] at hid
    obtain ⟨hlt, heq⟩ := hid
    rw [← heq, List.getD_eq_getElem vertices 0 hlt]
    exact List.getElem_mem _
  · intro h
    obtain ⟨i, hi, heq⟩ := List.getElem_of_mem h
    apply Finset.nonempty_iff_ne_empty.mp
    refine ⟨i, ?_⟩
    rw [comm, Finset.mem_filter, Finset.mem_range]
    exact ⟨hi, by rw [List.getD_eq_getElem vertices 0 hi, heq]⟩

theorem sum_map_guard (p : Nat → Prop) [DecidablePred p] (g : Nat → FP) :
    ∀ L : List Nat,
      (L.map (fun x => if p x then FP.fin 0 else g x)).sum =
        ((L.filter (fun x => decide (¬ p x))).map g).sum
  | [] => rfl
  | a :: t => by
    have ht := sum_map_guard p g t
    simp only [decide_not, ← fp_zero_def] at ht ⊢
    by_cases h : p a
    · simp [h, ht]
    · simp [h, ht]

/-- C3: for every assignment whose labels all lie in `[0, vertex_count)`, the
evaluator returns exactly the reference statistics of the specification: the
number of distinct labels present, and the sum over the non-empty communities
(one per distinct label, grouping vertices by label) of
`lv/(2m) - (dv/(2m))^2` with `m = edge_count`. -/
theorem c3_evaluator_matches_reference (vertices : List VertexId)
    (edges : List (List VertexId)) (nedges : Nat)
    (h : ∀ x ∈ vertices, x < vertices.length) :
    statistics vertices edges nedges = specStatistics vertices edges nedges := by
  rw [statistics, specStatistics]
  refine Prod.ext rfl ?_
  show ((List.range vertices.length).map (contrib vertices edges nedges)).sum = _
  have hguard : (List.range vertices.length).map (contrib vertices edges nedges)
      = (List.range vertices.length).map (fun l =>
          if comm vertices l = ∅ then FP.fin 0
          else
            fpSub
              (fpDiv (FP.fin (lv vertices edges l))
                (FP.fin ((nedges * 2 : Nat) : ℚ)))
              (fpMul
                (fpDiv (FP.fin (dv vertices edges l))
                  (FP.fin ((nedges * 2 : Nat) : ℚ)))
                (fpDiv (FP.fin (dv vertices edges l))
                  (FP.fin ((nedges * 2 : Nat) : ℚ))))) := rfl
  rw [hguard, sum_map_guard]
  have hperm : List.Perm ((List.range vertices.length).filter
      (fun x => decide (¬ comm vertices x = ∅))) vertices.dedup := by
    rw [List.perm_ext_iff_of_nodup (List.Nodup.filter _ (List.nodup_range _))
      (List.nodup_dedup vertices)]
    intro l
    rw [List.mem_filter, List.mem_range, List.mem_dedup, decide_eq_true_eq]
    constructor
    · intro ⟨_, hne⟩
      exact (comm_nonempty_iff vertices l).mp hne
    · intro hmem
      exact ⟨h l hmem, (comm_nonempty_iff vertices l).mpr hmem⟩
  exact List.Perm.sum_eq (List.Perm.map _ hperm)

theorem comm_empty_lv (vertices : List VertexId) (edges : List (List VertexId))
    (l : Nat) (h : comm vertices l = ∅) : lv vertices edges l = 0 := by
  rw [lv, h]; rfl

theorem comm_empty_dv (vertices : List VertexId) (edges : List (List VertexId))
    (l : Nat) (h : comm vertices l = ∅) : dv vertices edges l = 0 := by
  rw [dv, h]; rfl

theorem lv_le_dv (vertices : List VertexId) (edges : List (List VertexId))
    (l : Nat) : lv vertices edges l ≤ dv vertices edges l :=
  Finset.sum_le_sum (fun _ _ => List.countP_le_length _)

theorem list_range_sum (f : Nat → ℚ) :
    ∀ n : Nat, ((List.range n).map f).sum = (Finset.range n).sum f
  | 0 => rfl
  | n + 1 => by
    rw [List.range_succ, List.map_append, List.sum_append, Finset.sum_range_succ,
      list_range_sum f n]
    simp

theorem contrib_fin (vertices : List VertexId) (edges : List (List VertexId))
    (nedges : Nat) (l : Nat) (hm : 0 < nedges) :
    contrib vertices edges nedges l =
      FP.fin ((lv vertices edges l : ℚ) / ((nedges * 2 : Nat) : ℚ) -
        ((dv vertices edges l : ℚ) / ((nedges * 2 : Nat) : ℚ)) *
          ((dv vertices edges l : ℚ) / ((nedges * 2 : Nat) : ℚ))) := by
  have hne : ((nedges * 2 : Nat) : ℚ) ≠ 0 := by
    rw [Nat.cast_ne_zero]; omega
  rw [contrib]
  split
  · rename_i hemp
    rw [comm_empty_lv vertices edges l hemp, comm_empty_dv vertices edges l hemp]
    norm_num
  · simp only [fpDiv, if_neg hne, fpMul, fpSub]

/-- C7: for every graph with `edge_count > 0` whose total degree is consistent
with `edge_count` (each of the `edge_count` undirected edges contributes one
adjacency entry at each endpoint), and every assignment whose labels all lie in
`[0, vertex_count)`, the modularity returned by `statistics` is a finite value
in `[-1, 1]`. -/
theorem c7_modularity_range (vertices : List VertexId)
    (edges : List (List VertexId)) (nedges : Nat)
    (h1 : 0 < nedges)
    (h2 : ∀ x ∈ vertices, x < vertices.length)
    (h4 : (Finset.range vertices.length).sum
      (fun v => (edges.getD v []).length) = nedges * 2) :
    ∃ q : ℚ, (statistics vertices edges nedges).2 = FP.fin q ∧
      -1 ≤ q ∧ q ≤ 1 := by
  classical
  set n := vertices.length with hn
  set m2 : ℚ := ((nedges * 2 : Nat) : ℚ) with hm2def
  have hm2 : (0 : ℚ) < m2 := by
    rw [hm2def]
    exact_mod_cast Nat.pos_of_ne_zero (by omega)
  set D : Nat → ℚ := fun l => (dv vertices edges l : ℚ) / m2 with hD
  set Lq : Nat → ℚ := fun l => (lv vertices edges l : ℚ) / m2 with hLq
  have hstat : (statistics vertices edges nedges).2 =
      FP.fin ((Finset.range n).sum (fun l => Lq l - D l * D l)) := by
    show ((List.range n).map (contrib vertices edges nedges)).sum = _
    have hmap : (List.range n).map (contrib vertices edges nedges) =
        (List.range n).map (fun l => FP.fin (Lq l - D l * D l)) := by
      apply List.map_congr_left
      intro l _
      rw [contrib_fin vertices edges nedges l h1]
    rw [hmap, sum_map_fin, list_range_sum]
  have hDsum : (Finset.range n).sum D = 1 := by
    have hfib : (Finset.range n).sum (fun l => dv vertices edges l) =
        (Finset.range n).sum (fun id => (edges.getD id []).length) := by
      have hmaps : ∀ id ∈ Finset.range n, vertices.getD id 0 ∈ Finset.range n := by
        intro id hid
        rw [Finset.mem_range] at hid ⊢
        rw [List.getD_eq_getElem vertices 0 hid]
        exact h2 _ (List.getElem_mem _)
      exact Finset.sum_fiberwise_of_maps_to hmaps _
    have hcast : (Finset.range n).sum (fun l => (dv vertices edges l : ℚ)) = m2 := by
      rw [← Nat.cast_sum, hfib, h4, hm2def]
    rw [hD]
    rw [← Finset.sum_div, hcast, div_self hm2.ne']
  have hDnonneg : ∀ l ∈ Finset.range n, 0 ≤ D l := by
    intro l _
    rw [hD]
    positivity
  refine ⟨_, hstat, ?_, ?_⟩
  · have hsq : (Finset.range n).sum (fun l => D l ^ 2) ≤
        ((Finset.range n).sum D) ^ 2 :=
      Finset.sum_sq_le_sq_sum_of_nonneg hDnonneg
    have hterm : ∀ l ∈ Finset.range n, -(D l ^ 2) ≤ Lq l - D l * D l := by
      intro l _
      have hLnn : 0 ≤ Lq l := by rw [hLq]; positivity
      have : D l * D l = D l ^ 2 := by ring
      linarith
    calc (-1 : ℚ) = -(((Finset.range n).sum D) ^ 2) := by rw [hDsum]; norm_num
      _ ≤ -((Finset.range n).sum (fun l => D l ^ 2)) := by linarith
      _ = (Finset.range n).sum (fun l => -(D l ^ 2)) := by
          rw [Finset.sum_neg_distrib]
      _ ≤ (Finset.range n).sum (fun l => Lq l - D l * D l) :=
          Finset.sum_le_sum hterm
  · have hterm : ∀ l ∈ Finset.range n, Lq l - D l * D l ≤ D l := by
      intro l _
      have hle : Lq l ≤ D l := by
        rw [hLq, hD]
        have hcast : (lv vertices edges l : ℚ) ≤ (dv vertices edges l : ℚ) := by
          exact_mod_cast lv_le_dv vertices edges l
        exact div_le_div_of_nonneg_right hcast hm2.le
      nlinarith [mul_self_nonneg (D l)]
    calc (Finset.range n).sum (fun l => Lq l - D l * D l) ≤
          (Finset.range n).sum D := Finset.sum_le_sum hterm
      _ = 1 := hDsum

theorem c3_witness :
    (∀ x ∈ ([0, 0, 1] : List VertexId), x < ([0, 0, 1] : List VertexId).length) ∧
    statistics [0, 0, 1] [[1], [0], []] 0 =
      specStatistics [0, 0, 1] [[1], [0], []] 0 :=
  ⟨by decide, c3_evaluator_matches_reference [0, 0, 1] [[1], [0], []] 0 (by decide)⟩

theorem c7_witness :
    (0 : Nat) < 3 ∧
    (∀ x ∈ ([0, 1, 2] : List VertexId), x < ([0, 1, 2] : List VertexId).length) ∧
    (Finset.range ([0, 1, 2] : List VertexId).length).sum
      (fun v => (([[1, 2], [0, 2], [0, 1]] : List (List VertexId)).getD v []).length)
      = 3 * 2 ∧
    ∃ q : ℚ, (statistics [0, 1, 2] [[1, 2], [0, 2], [0, 1]] 3).2 = FP.fin q ∧
      -1 ≤ q ∧ q ≤ 1 :=
  ⟨by decide, by decide, by decide,
    c7_modularity_range [0, 1, 2] [[1, 2], [0, 2], [0, 1]] 3 (by decide)
      (by decide) (by decide)⟩

/-- C2: evaluating the code at the failing input `vertex_count = 1`, empty
adjacency, `edge_count = 0`: the single non-empty community computes
`0.0 / 0.0 - (0.0 / 0.0) * (0.0 / 0.0)`, so `statistics` returns NaN, not a
defined numeric modularity. -/
theorem c2_zero_edges_nan : statistics [0] [[]] 0 = (1, FP.nan) := by decide

theorem exRound_keep : RoundRel [[1, 2], [0], [3, 0], [2]] [0, 0, 2, 2]
    [0, 0, 2, 2] := by
  refine ⟨rfl, fun _ => 0,
    fun v i => ([0, 0, 2, 2] : List Nat).getD
      (nbrAt [[1, 2], [0], [3, 0], [2]] v i) 0,
    fun _ _ => false, ?_, ?_⟩
  · intro v _ i _
    left; rfl
  · decide

theorem exRound_flip : RoundRel [[1, 2], [0], [3, 0], [2]] [0, 0, 2, 2]
    [2, 0, 2, 2] := by
  refine ⟨rfl, fun _ => 0,
    fun v i => ([0, 0, 2, 2] : List Nat).getD
      (nbrAt [[1, 2], [0], [3, 0], [2]] v i) 0,
    fun v _ => decide (v = 0), ?_, ?_⟩
  · intro v _ i _
    left; rfl
  · decide

/-- C6 counterexample: on the graph with edges 0-1, 2-3, 0-2 and the assignment
`[0, 0, 2, 2]`, one round (all ties broken towards the current label) yields
`active == 0`, yet a repeated round on the same assignment with a different tie
break at vertex 0 changes its label, yielding `active == 1 ≠ 0`. -/
theorem c6_counterexample :
    RoundRel [[1, 2], [0], [3, 0], [2]] [0, 0, 2, 2] [0, 0, 2, 2] ∧
    activeOf [0, 0, 2, 2] [0, 0, 2, 2] = 0 ∧
    RoundRel [[1, 2], [0], [3, 0], [2]] [0, 0, 2, 2] [2, 0, 2, 2] ∧
    activeOf [0, 0, 2, 2] [2, 0, 2, 2] ≠ 0 :=
  ⟨exRound_keep, by decide, exRound_flip, by decide⟩

/-- C6 (amended): once a round yields `active == 0`, that round left the
assignment unchanged, hence its evaluated statistics equal those of the
pre-round assignment; a repeated round need not yield `active == 0` again, since
different random tie-breaking choices may change a label. -/
theorem c6_fixed_point_amended (edges : List (List VertexId)) (nedges : Nat)
    (old new : List VertexId) (hr : RoundRel edges old new)
    (ha : activeOf old new = 0) :
    new = old ∧ statistics new edges nedges = statistics old edges nedges := by
  have heq := activeOf_zero_eq hr.len ha
  exact ⟨heq, by rw [heq]⟩

theorem c6_witness :
    ([0, 0, 2, 2] : List VertexId) = [0, 0, 2, 2] ∧
    statistics [0, 0, 2, 2] [[1, 2], [0], [3, 0], [2]] 3 =
      statistics [0, 0, 2, 2] [[1, 2], [0], [3, 0], [2]] 3 :=
  c6_fixed_point_amended [[1, 2], [0], [3, 0], [2]] 3 [0, 0, 2, 2] [0, 0, 2, 2]
    exRound_keep (by decide)

/-- C1 counterexample: with `round_limit == 0` on two disjoint communities worth
of input (a triangle on 3 vertices, identity labels), every reachable state of
the loop keeps the initial tracker values, so `lpa` returns community count 0
and modularity -1.0, while the initial singleton assignment's statistics have
community count 3 (= vertex_count): the output does not equal the initial
singleton statistics. -/
theorem c1_counterexample :
    (∀ s, Relation.ReflTransGen (LpaStep [[1, 2], [0, 2], [0, 1]] 3 0)
        (initLpa [0, 1, 2]) s →
      s.bestCommunity = 0 ∧ s.bestModularity = FP.fin (-1)) ∧
    (statistics [0, 1, 2] [[1, 2], [0, 2], [0, 1]] 3).1 = 3 ∧ (0 : Nat) ≠ 3 := by
  refine ⟨?_, by decide, by decide⟩
  intro s h
  have hs : s = initLpa [0, 1, 2] := by
    refine lpaRTG_stuck h (fun s' hstep => ?_)
    exact absurd hstep.1 (by decide)
  rw [hs]
  exact ⟨rfl, rfl⟩

/-- C1 (amended): if `round_limit` is 0 the engine performs zero update rounds,
and `lpa` returns the best tracker's untouched sentinel — community count 0 and
modularity -1.0 — leaving the caller's assignment exactly the initial one; the
initial singleton statistics are computed but are not what is returned. -/
theorem c1_zero_limit_sentinel (v0 : List VertexId)
    (edges : List (List VertexId)) (nedges : Nat) (s : LpaState)
    (h : Relation.ReflTransGen (LpaStep edges nedges 0) (initLpa v0) s) :
    s = initLpa v0 ∧ s.bestCommunity = 0 ∧ s.bestModularity = FP.fin (-1) ∧
      s.callerVertices = v0 := by
  have hs : s = initLpa v0 := by
    refine lpaRTG_stuck h (fun s' hstep => ?_)
    have hlt := hstep.1
    simp [initLpa] at hlt
  rw [hs]
  exact ⟨rfl, rfl, rfl, rfl⟩

theorem c1_witness :
    initLpa [0, 1, 2] = initLpa [0, 1, 2] ∧
    (initLpa [0, 1, 2]).bestCommunity = 0 ∧
    (initLpa [0, 1, 2]).bestModularity = FP.fin (-1) ∧
    (initLpa [0, 1, 2]).callerVertices = [0, 1, 2] :=
  c1_zero_limit_sentinel [0, 1, 2] [[1, 2], [0, 2], [0, 1]] 3 _
    Relation.ReflTransGen.refl

/-- C4 counterexample: the input with `vertex_count == 0` is not rejected and no
failure surfaces: the loop guard fails immediately (`active` is seeded with
`vertices.len() = 0`), no step is possible, and `lpa` returns the normal value
`(0, -1.0)`. -/
theorem c4_counterexample :
    (∀ s, Relation.ReflTransGen (LpaStep [] 0 20) (initLpa []) s →
      s = initLpa []) ∧
    (initLpa []).bestCommunity = 0 ∧ (initLpa []).bestModularity = FP.fin (-1) := by
  refine ⟨?_, rfl, rfl⟩
  intro s h
  refine lpaRTG_stuck h (fun s' hstep => ?_)
  exact absurd hstep.2.1 (by decide)

/-- C4 (amended): no input validation exists. With `vertex_count == 0`, `lpa`
performs zero rounds and returns `(0, -1.0)` normally instead of failing; with
an out-of-range adjacency entry (input `vertex_count = 1`, adjacency `[[5]]`)
and `limit > 0`, the engine does begin a round — the loop guard holds — and that
round's neighbor read `atomic_vertices[5]` indexes out of bounds, a mid-round
panic rather than a pre-engine rejection. -/
theorem c4_no_validation :
    (∀ (edges : List (List VertexId)) (nedges : Nat) (limit : Int) s,
      Relation.ReflTransGen (LpaStep edges nedges limit) (initLpa []) s →
        s = initLpa []) ∧
    ((initLpa [0]).iteration < 1 ∧ 0 < (initLpa [0]).active ∧
      roundIndexPanics [[5]] [0]) := by
  constructor
  · intro edges nedges limit s h
    refine lpaRTG_stuck h (fun s' hstep => ?_)
    exact absurd hstep.2.1 (by decide)
  · exact ⟨by decide, by decide, 0, by decide, 5, by decide, by decide⟩

theorem c4_witness : initLpa [] = initLpa [] :=
  c4_no_validation.1 [] 0 20 (initLpa []) Relation.ReflTransGen.refl

/-- C5: after every round's evaluation, the stored best snapshot (modularity,
community count and the caller's deep copy) is overwritten exactly when the
round's modularity is strictly greater (under `f64` `>`) than the stored best
modularity; consequently the recorded best modularity is monotone along every
execution of the loop. -/
theorem c5_best_tracker (edges : List (List VertexId)) (nedges : Nat)
    (limit : Int) :
    (∀ s s', LpaStep edges nedges limit s s' →
      ((fpGt (statistics s'.labels edges nedges).2 s.bestModularity = true ∧
        s'.bestModularity = (statistics s'.labels edges nedges).2 ∧
        s'.bestCommunity = (statistics s'.labels edges nedges).1 ∧
        s'.callerVertices = s'.labels) ∨
       (fpGt (statistics s'.labels edges nedges).2 s.bestModularity = false ∧
        s'.bestModularity = s.bestModularity ∧
        s'.bestCommunity = s.bestCommunity ∧
        s'.callerVertices = s.callerVertices))) ∧
    (∀ s s', Relation.ReflTransGen (LpaStep edges nedges limit) s s' →
      FPle s.bestModularity s'.bestModularity) := by
  constructor
  · intro s s' hstep
    obtain ⟨hlt, hact, new, hround, rfl⟩ := hstep
    cases hc : fpGt (statistics new edges nedges).2 s.bestModularity
    · right
      simp [hc]
    · left
      simp [hc]
  · intro s s' h
    exact lpaRTG_best_mono h

theorem c5_witness :
    FPle (initLpa [0]).bestModularity (initLpa [0]).bestModularity :=
  (c5_best_tracker [[]] 0 20).2 (initLpa [0]) (initLpa [0])
    Relation.ReflTransGen.refl

/-- C8: a vertex with an empty adjacency list keeps its label in every round
(the streaming loop never overwrites the initial `new_label`), so an isolated
vertex initially labelled with its own id keeps that id in the label store and
in the caller's vector across every execution of the loop. -/
theorem c8_isolated_keeps_label (v0 : List VertexId)
    (edges : List (List VertexId)) (nedges : Nat) (limit : Int) (v : Nat)
    (s : LpaState) (hv : v < v0.length) (hid : v0.getD v 0 = v)
    (hiso : edges.getD v [] = [])
    (h : Relation.ReflTransGen (LpaStep edges nedges limit) (initLpa v0) s) :
    s.labels.getD v 0 = v ∧ s.callerVertices.getD v 0 = v := by
  suffices hinv : s.labels.length = v0.length ∧ s.labels.getD v 0 = v ∧
      s.callerVertices.getD v 0 = v from ⟨hinv.2.1, hinv.2.2⟩
  induction h with
  | refl => exact ⟨rfl, hid, hid⟩
  | tail hrest hstep ih =>
    obtain ⟨hlen, hlab, hcal⟩ := ih
    obtain ⟨hlt, hact, new, hround, rfl⟩ := hstep
    have hnewlen : new.length = v0.length := hround.len.trans hlen
    have hnewv : new.getD v 0 = v := by
      have hk := round_isolated hround v (by omega) hiso
      rw [hk, hlab]
    refine ⟨hnewlen, hnewv, ?_⟩
    dsimp only
    split
    · exact hnewv
    · exact hcal

theorem c8_witness :
    (0 : Nat) < ([0, 1] : List VertexId).length ∧
    ([0, 1] : List VertexId).getD 0 0 = 0 ∧
    ([[], [0]] : List (List VertexId)).getD 0 [] = [] ∧
    (initLpa [0, 1]).labels.getD 0 0 = 0 ∧
    (initLpa [0, 1]).callerVertices.getD 0 0 = 0 :=
  ⟨by decide, by decide, by decide,
    c8_isolated_keeps_label [0, 1] [[], [0]] 0 20 0 _ (by decide) (by decide)
      (by decide) Relation.ReflTransGen.refl⟩

/-- C9: for valid input (initial labels and all adjacency entries in
`[0, vertex_count)`), after initialization and after every round the label
store holds exactly `vertex_count` labels and every stored label is a valid
VertexId in `[0, vertex_count)`. -/
theorem c9_assignment_valid (v0 : List VertexId)
    (edges : List (List VertexId)) (nedges : Nat) (limit : Int) (s : LpaState)
    (h0 : ∀ x ∈ v0, x < v0.length)
    (hadj : ∀ l ∈ edges, ∀ x ∈ l, x < v0.length)
    (h : Relation.ReflTransGen (LpaStep edges nedges limit) (initLpa v0) s) :
    s.labels.length = v0.length ∧ ∀ x ∈ s.labels, x < v0.length := by
  induction h with
  | refl => exact ⟨rfl, h0⟩
  | tail hrest hstep ih =>
    obtain ⟨hlen, hval⟩ := ih
    obtain ⟨hlt, hact, new, hround, rfl⟩ := hstep
    exact ⟨hround.len.trans hlen, round_valid hround hlen hval hadj⟩

theorem c9_witness :
    (∀ x ∈ ([0, 0] : List VertexId), x < 2) ∧
    (∀ l ∈ ([[1], [0]] : List (List VertexId)), ∀ x ∈ l, x < 2) ∧
    (initLpa [0, 0]).labels.length = 2 ∧
    (∀ x ∈ (initLpa [0, 0]).labels, x < 2) :=
  ⟨by decide, by decide,
    (c9_assignment_valid [0, 0] [[1], [0]] 1 20 _ (by decide) (by decide)
      Relation.ReflTransGen.refl).1,
    (c9_assignment_valid [0, 0] [[1], [0]] 1 20 _ (by decide) (by decide)
      Relation.ReflTransGen.refl).2⟩

/-- C10: whenever no round's evaluated modularity is strictly greater (under
`f64` `>`) than -1.0 — in particular when `round_limit == 0` or
`vertex_count == 0`, where no round runs — the tracker is never overwritten, so
`lpa` returns community count 0 and modularity -1.0 and leaves the caller's
label assignment exactly as it was on entry. -/
theorem c10_no_improvement_sentinel (v0 : List VertexId)
    (edges : List (List VertexId)) (nedges : Nat) (limit : Int) (s : LpaState)
    (h : Relation.ReflTransGen (LpaStep edges nedges limit) (initLpa v0) s)
    (hm : ∀ s1 s2,
      Relation.ReflTransGen (LpaStep edges nedges limit) (initLpa v0) s1 →
      LpaStep edges nedges limit s1 s2 →
      fpGt (statistics s2.labels edges nedges).2 (FP.fin (-1)) = false) :
    s.bestCommunity = 0 ∧ s.bestModularity = FP.fin (-1) ∧
      s.callerVertices = v0 := by
  induction h with
  | refl => exact ⟨rfl, rfl, rfl⟩
  | tail hrest hstep ih =>
    have hfalse := hm _ _ hrest hstep
    obtain ⟨hc, hb, hv⟩ := ih
    obtain ⟨hlt, hact, new, hround, rfl⟩ := hstep
    simp only at hfalse
    refine ⟨?_, ?_, ?_⟩ <;> simp [hb, hfalse, hc, hv]

theorem c10_witness :
    (initLpa ([] : List VertexId)).bestCommunity = 0 ∧
    (initLpa ([] : List VertexId)).bestModularity = FP.fin (-1) ∧
    (initLpa ([] : List VertexId)).callerVertices = [] :=
  c10_no_improvement_sentinel [] [] 0 5 _ Relation.ReflTransGen.refl
    (fun s1 s2 h1 h2 => by
      rcases Relation.ReflTransGen.cases_head h1 with rfl | ⟨c, hc, _⟩
      · exact absurd h2.2.1 (by decide)
      · exact absurd hc.2.1 (by decide))

end LPA
